import Mathlib

/-!
Shallow embedding of the SkillHub CLI sync core (src/core/syncCore.ts and the
legacy combined sync module) together with proofs about the reconciliation
claims.

Modelling conventions:
* A JavaScript string is a Lean `String`; the JS relational comparison and
  `String.prototype.localeCompare` are modelled as plain code-point
  lexicographic comparison (`strLeB` below).  The sort performed by
  `Array.prototype.sort` is stable (ES2019), so it is modelled by the stable
  `List.insertionSort`; on the deduplicated inputs the code sorts, distinct
  records never compare equal, hence any correct stable sort computes the
  same list.
* `Date.parse` is an external runtime primitive; every function that uses it
  is parametrised by `dateParse : String → Option Int` where `none` models a
  `NaN` result and `some t` a finite epoch-milliseconds value.
* `undefined` / missing values are `Option.none`; the JS nullish coalescing
  operator `??` is `Option.getD`.
* A payload `skills` array may hold legacy bare strings or (partial) record
  objects; this heterogeneous input is the inductive `RawSkill`.
-/

def DEFAULT_SKILL_SOURCE_REPO : String := "vercel-labs/agent-skills"

def BANNED_SKILL_NAME_SUBSTRINGS : List String :=
  ["No global skills found",
   "Try listing project skills without -g",
   "No project skills found",
   "Try listing global skills"]

/-- The canonical skill record: `{ name: string; source: string }`. -/
structure SkillInfo where
  name : String
  source : String
deriving DecidableEq, Repr

/-- One entry of a payload `skills` array: legacy bare string, or an object
whose `name`/`source` fields may each be absent (`undefined`/`null`). -/
inductive RawSkill where
  | str (s : String)
  | obj (name : Option String) (source : Option String)
deriving DecidableEq, Repr

/-- Input-side `SkillhubPayload` (`skills: SkillInfo[] | string[]`). -/
structure RawPayload where
  skills : List RawSkill
  updatedAt : String
deriving DecidableEq, Repr

/-- Output-side `SkillhubPayload` as produced for `uploadPayload`. -/
structure SkillhubPayload where
  skills : List SkillInfo
  updatedAt : String
deriving DecidableEq, Repr

/-! ## String comparison model -/

/-- Three-way lexicographic comparison of character lists by code point. -/
def cmpChars : List Char → List Char → Ordering
  | [], [] => .eq
  | [], _ :: _ => .lt
  | _ :: _, [] => .gt
  | a :: as, b :: bs =>
      if a < b then .lt
      else if b < a then .gt
      else cmpChars as bs

/-- Three-way comparison of strings; model of the comparators the JS code
builds from `localeCompare` results. -/
def strCmp (a b : String) : Ordering := cmpChars a.data b.data

/-- Boolean "not greater": `a` may be placed before `b` by the sort. -/
def strLeB (a b : String) : Bool :=
  match strCmp a b with
  | .gt => false
  | _ => true

/-! ## Normalizer and set reconciler (src/core/syncCore.ts) -/

/-- Per-entry conversion done by the `map` inside `normalizeSkills`:
a bare string becomes `{ name, source: DEFAULT }`; an object gets
`String(skill?.name ?? "")` and `String(skill?.source ?? DEFAULT)` —
note `??` only replaces nullish values, not the empty string. -/
def coerceRaw : RawSkill → SkillInfo
  | .str s => { name := s, source := DEFAULT_SKILL_SOURCE_REPO }
  | .obj n s =>
      { name := n.getD "", source := s.getD DEFAULT_SKILL_SOURCE_REPO }

/-- `pre` is a leading segment of the second list. -/
def startsWithChars : List Char → List Char → Bool
  | [], _ => true
  | _ :: _, [] => false
  | a :: as, b :: bs => a == b && startsWithChars as bs

/-- `sub` occurs contiguously somewhere in the list. -/
def containsChars (sub : List Char) : List Char → Bool
  | [] => startsWithChars sub []
  | c :: rest => startsWithChars sub (c :: rest) || containsChars sub rest

/-- `sub` occurs inside `hay` (JS `String.prototype.includes`). -/
def includesSubstr (hay sub : String) : Bool :=
  containsChars sub.data hay.data

/-- The filter predicate of `normalizeSkills`: non-empty name and not one of
the leaked diagnostic messages. -/
def keepSkill (s : SkillInfo) : Bool :=
  decide (0 < s.name.length) &&
    !(BANNED_SKILL_NAME_SUBSTRINGS.any fun bad => includesSubstr s.name bad)

/-- Deduplication key `source + ":" + name`. -/
def skillKey (s : SkillInfo) : String := s.source ++ ":" ++ s.name

/-- First-occurrence deduplication by `skillKey`, with the `seen` set made
explicit (the JS code uses a mutable `Set<string>`). -/
def dedupFirstAux (seen : List String) : List SkillInfo → List SkillInfo
  | [] => []
  | s :: rest =>
      if skillKey s ∈ seen then dedupFirstAux seen rest
      else s :: dedupFirstAux (skillKey s :: seen) rest

/-- The comparator of `uniqueSortedSkills`: by `source`, then by `name`. -/
def skillLe (a b : SkillInfo) : Bool :=
  if a.source = b.source then strLeB a.name b.name
  else strLeB a.source b.source

/-- The comparator as a decidable relation, for `List.insertionSort`. -/
def skillLEP (a b : SkillInfo) : Prop := skillLe a b = true

instance : DecidableRel skillLEP :=
  fun a b => instDecidableEqBool (skillLe a b) true

/-- `uniqueSortedSkills`: keep the first occurrence of every key, then sort
ascending by `(source, name)` (stable sort; see header comment). -/
def uniqueSortedSkills (skills : List SkillInfo) : List SkillInfo :=
  List.insertionSort skillLEP (dedupFirstAux [] skills)

/-- `normalizeSkills`: coerce each entry, drop empty/diagnostic names, then
deduplicate and sort. -/
def normalizeSkills (skills : List RawSkill) : List SkillInfo :=
  uniqueSortedSkills ((skills.map coerceRaw).filter keepSkill)

/-- Field-wise equality test used by the `.some(...)` membership probes and
by `areSameSkills` (`l.name === r.name && l.source === r.source`). -/
def skillEqB (a b : SkillInfo) : Bool :=
  a.name == b.name && a.source == b.source

/-- `areSameSkills`: canonicalize both sides, compare lengths, then compare
records index by index. -/
def areSameSkills (left right : List SkillInfo) : Bool :=
  let leftSorted := uniqueSortedSkills left
  let rightSorted := uniqueSortedSkills right
  leftSorted.length == rightSorted.length &&
    (leftSorted.zip rightSorted).all fun p => skillEqB p.1 p.2

/-! ## Timestamp comparator -/

/-- `parseTimestamp(value?: string)`: `null` for `undefined` or `""`, else
the `Date.parse` result when finite (`dateParse` models `Date.parse`,
returning `none` for `NaN`). -/
def parseTimestamp (dateParse : String → Option Int) :
    Option String → Option Int
  | none => none
  | some value => if value = "" then none else dateParse value

/-- `remoteTime !== null && remoteTime > lastSyncTime`. -/
def isNewer (remoteTime : Option Int) (lastSyncTime : Int) : Bool :=
  match remoteTime with
  | none => false
  | some rt => decide (rt > lastSyncTime)

/-! ## Plan builders (src/core/syncCore.ts) -/

structure MergeSyncPlan where
  mode : String
  localSkills : List SkillInfo
  remoteSkills : List SkillInfo
  installCandidates : List SkillInfo
  uploadPayload : Option SkillhubPayload
deriving DecidableEq, Repr

structure AutoSyncPlan where
  mode : String
  localSkills : List SkillInfo
  remoteSkills : List SkillInfo
  installCandidates : List SkillInfo
  uploadPayload : Option SkillhubPayload
  isRemoteNewer : Bool
deriving DecidableEq, Repr

structure PullSyncPlan where
  mode : String
  localSkills : List SkillInfo
  remoteSkills : List SkillInfo
  installCandidates : List SkillInfo
  removeCandidates : List SkillInfo
deriving DecidableEq, Repr

structure PushSyncPlan where
  mode : String
  localSkills : List SkillInfo
  remoteSkills : List SkillInfo
  uploadPayload : Option SkillhubPayload
deriving DecidableEq, Repr

def buildMergePlan (localPayload remotePayload : RawPayload)
    (nowIso : String) : MergeSyncPlan :=
  let localSkills := normalizeSkills localPayload.skills
  let remoteSkills := normalizeSkills remotePayload.skills
  let unionSkills := uniqueSortedSkills (localSkills ++ remoteSkills)
  let installCandidates := unionSkills.filter fun skill =>
    !(localSkills.any fun l => skillEqB l skill)
  let uploadPayload :=
    if areSameSkills remoteSkills unionSkills then none
    else some { skills := unionSkills, updatedAt := nowIso }
  { mode := "merge", localSkills, remoteSkills, installCandidates,
    uploadPayload }

def buildAutoPlan (dateParse : String → Option Int)
    (localPayload remotePayload : RawPayload)
    (lastSyncAt : Option String) (nowIso : String) : AutoSyncPlan :=
  let localSkills := normalizeSkills localPayload.skills
  let remoteSkills := normalizeSkills remotePayload.skills
  let lastSyncTime := (parseTimestamp dateParse lastSyncAt).getD 0
  let remoteTime := parseTimestamp dateParse (some remotePayload.updatedAt)
  let remoteNewer := isNewer remoteTime lastSyncTime
  if remoteNewer then
    { mode := "auto", localSkills, remoteSkills,
      installCandidates := remoteSkills.filter fun skill =>
        !(localSkills.any fun l => skillEqB l skill),
      uploadPayload := none,
      isRemoteNewer := remoteNewer }
  else
    { mode := "auto", localSkills, remoteSkills,
      installCandidates := [],
      uploadPayload :=
        if areSameSkills localSkills remoteSkills then none
        else some { skills := localSkills, updatedAt := nowIso },
      isRemoteNewer := remoteNewer }

def buildPullPlan (localPayload remotePayload : RawPayload) : PullSyncPlan :=
  let localSkills := normalizeSkills localPayload.skills
  let remoteSkills := normalizeSkills remotePayload.skills
  { mode := "pull", localSkills, remoteSkills,
    installCandidates := remoteSkills.filter fun remote =>
      !(localSkills.any fun l => skillEqB l remote),
    removeCandidates := localSkills.filter fun l =>
      !(remoteSkills.any fun remote => skillEqB remote l) }

def buildPushPlan (localPayload remotePayload : RawPayload)
    (nowIso : String) : PushSyncPlan :=
  let localSkills := normalizeSkills localPayload.skills
  let remoteSkills := normalizeSkills remotePayload.skills
  { mode := "push", localSkills, remoteSkills,
    uploadPayload :=
      if areSameSkills localSkills remoteSkills then none
      else some { skills := localSkills, updatedAt := nowIso } }

/-! ## Legacy combined module (buildSyncPlan / parseStrategy) -/

inductive MergeStrategy where
  | union
  | latest
deriving DecidableEq, Repr

structure SyncPlan where
  strategy : MergeStrategy
  localSkills : List SkillInfo
  remoteSkills : List SkillInfo
  installCandidates : List SkillInfo
  uploadPayload : Option SkillhubPayload
  isRemoteNewer : Bool
deriving DecidableEq, Repr

/-- The legacy combined core's `parseStrategy` (src/core/syncCore.ts):
falsy input defaults to `"union"`, the two known names pass through, and any
other string throws the descriptive validation error. -/
def parseStrategy : Option String → Except String MergeStrategy
  | none => .ok .union
  | some input =>
      if input = "" then .ok .union
      else if input = "union" then .ok .union
      else if input = "latest" then .ok .latest
      else .error ("Invalid strategy \"" ++ input ++
        "\". Use one of: union, latest.")

/-- The duplicate `parseStrategy` helper in the legacy sync command
(src/unnamed/part_004): recognized names pass through, everything else
silently becomes the default strategy `"union"`; it can never fail. -/
def parseStrategyLegacyCmd (input : Option String) : MergeStrategy :=
  if input = some "latest" then .latest
  else if input = some "union" then .union
  else .union

/-- The legacy combined `buildSyncPlan`. -/
def buildSyncPlan (dateParse : String → Option Int)
    (strategy : MergeStrategy) (localPayload remotePayload : RawPayload)
    (lastSyncAt : Option String) (nowIso : String) : SyncPlan :=
  let localSkills := normalizeSkills localPayload.skills
  let remoteSkills := normalizeSkills remotePayload.skills
  match strategy with
  | .union =>
      let unionSkills := uniqueSortedSkills (localSkills ++ remoteSkills)
      let installCandidates := unionSkills.filter fun skill =>
        !(localSkills.any fun l => skillEqB l skill)
      let uploadPayload :=
        if areSameSkills remoteSkills unionSkills then none
        else some { skills := unionSkills, updatedAt := nowIso }
      { strategy := .union, localSkills, remoteSkills, installCandidates,
        uploadPayload, isRemoteNewer := false }
  | .latest =>
      let lastSyncTime := (parseTimestamp dateParse lastSyncAt).getD 0
      let remoteTime :=
        parseTimestamp dateParse (some remotePayload.updatedAt)
      let remoteNewer := isNewer remoteTime lastSyncTime
      if remoteNewer then
        { strategy := .latest, localSkills, remoteSkills,
          installCandidates := remoteSkills.filter fun skill =>
            !(localSkills.any fun l => skillEqB l skill),
          uploadPayload := none, isRemoteNewer := remoteNewer }
      else
        { strategy := .latest, localSkills, remoteSkills,
          installCandidates := [],
          uploadPayload :=
            if areSameSkills localSkills remoteSkills then none
            else some { skills := localSkills, updatedAt := nowIso },
          isRemoteNewer := remoteNewer }

/-! ## Order lemmas for the string comparison model -/

theorem cmpChars_eq_iff (a b : List Char) : cmpChars a b = .eq ↔ a = b := by
  induction a generalizing b with
  | nil => cases b <;> simp [cmpChars]
  | cons x xs ih =>
    cases b with
    | nil => simp [cmpChars]
    | cons y ys =>
      simp only [cmpChars]
      by_cases hxy : x < y
      · simp only [if_pos hxy]
        constructor
        · intro h; exact absurd h (by decide)
        · intro h
          exact absurd (List.cons.injEq .. ▸ h).1 (ne_of_lt hxy)
      · by_cases hyx : y < x
        · simp only [if_neg hxy, if_pos hyx]
          constructor
          · intro h; exact absurd h (by decide)
          · intro h
            exact absurd (List.cons.injEq .. ▸ h).1 (ne_of_gt hyx)
        · have hx : x = y := le_antisymm (not_lt.mp hyx) (not_lt.mp hxy)
          simp [if_neg hxy, if_neg hyx, ih, hx]

theorem cmpChars_swap (a b : List Char) :
    cmpChars b a = (cmpChars a b).swap := by
  induction a generalizing b with
  | nil => cases b <;> simp [cmpChars, Ordering.swap]
  | cons x xs ih =>
    cases b with
    | nil => simp [cmpChars, Ordering.swap]
    | cons y ys =>
      simp only [cmpChars]
      by_cases hxy : x < y
      · have hyx : ¬ y < x := not_lt.mpr (le_of_lt hxy)
        simp [if_pos hxy, if_neg hyx, ne_of_lt hxy, Ordering.swap]
      · by_cases hyx : y < x
        · simp [if_pos hyx, if_neg hxy, Ordering.swap]
        · simp [if_neg hxy, if_neg hyx, ih]

theorem cmpChars_lt_trans {a b c : List Char}
    (h1 : cmpChars a b = .lt) (h2 : cmpChars b c = .lt) :
    cmpChars a c = .lt := by
  induction a generalizing b c with
  | nil =>
    cases b with
    | nil => exact absurd h1 (by simp [cmpChars])
    | cons y ys =>
      cases c with
      | nil => exact absurd h2 (by simp [cmpChars])
      | cons z zs => simp [cmpChars]
  | cons x xs ih =>
    cases b with
    | nil => exact absurd h1 (by simp [cmpChars])
    | cons y ys =>
      cases c with
      | nil => exact absurd h2 (by simp [cmpChars])
      | cons z zs =>
        simp only [cmpChars] at h1 h2 ⊢
        by_cases hxy : x < y
        · by_cases hyz : y < z
          · simp [lt_trans hxy hyz]
          · have hzy : ¬ z < y := by
              intro h
              rw [if_neg hyz, if_pos h] at h2
              exact absurd h2 (by decide)
            have hyz' : y = z := le_antisymm (not_lt.mp hzy) (not_lt.mp hyz)
            have : x < z := hyz' ▸ hxy
            simp [this]
        · rw [if_neg hxy] at h1
          by_cases hyx : y < x
          · rw [if_pos hyx] at h1; exact absurd h1 (by decide)
          · rw [if_neg hyx] at h1
            have hx : x = y := le_antisymm (not_lt.mp hyx) (not_lt.mp hxy)
            subst hx
            by_cases hxz : x < z
            · simp [hxz]
            · by_cases hzx : z < x
              · rw [if_neg hxz, if_pos hzx] at h2
                exact absurd h2 (by decide)
              · rw [if_neg hxz, if_neg hzx] at h2
                simp [if_neg hxz, if_neg hzx, ih h1 h2]

theorem strCmp_eq_iff (a b : String) : strCmp a b = .eq ↔ a = b := by
  cases a with
  | mk da =>
    cases b with
    | mk db =>
      simp only [strCmp, cmpChars_eq_iff]
      exact ⟨fun h => by rw [h], fun h => by
        injection h⟩

theorem strCmp_swap (a b : String) : strCmp b a = (strCmp a b).swap :=
  cmpChars_swap a.data b.data

theorem strCmp_lt_trans {a b c : String}
    (h1 : strCmp a b = .lt) (h2 : strCmp b c = .lt) : strCmp a c = .lt :=
  cmpChars_lt_trans h1 h2

theorem strLeB_iff_ne_gt (a b : String) :
    strLeB a b = true ↔ strCmp a b ≠ .gt := by
  unfold strLeB
  rcases h : strCmp a b <;> simp [h]

theorem strLeB_total (a b : String) :
    strLeB a b = true ∨ strLeB b a = true := by
  rw [strLeB_iff_ne_gt, strLeB_iff_ne_gt, strCmp_swap a b]
  rcases strCmp a b <;> simp [Ordering.swap]

theorem strLeB_antisymm {a b : String}
    (h1 : strLeB a b = true) (h2 : strLeB b a = true) : a = b := by
  rw [strLeB_iff_ne_gt] at h1 h2
  rw [strCmp_swap a b] at h2
  rcases h : strCmp a b with _ | _ | _
  · rw [h] at h2
    simp [Ordering.swap] at h2
  · exact (strCmp_eq_iff a b).mp h
  · rw [h] at h1; exact absurd rfl h1

theorem strLeB_trans {a b c : String}
    (h1 : strLeB a b = true) (h2 : strLeB b c = true) :
    strLeB a c = true := by
  rw [strLeB_iff_ne_gt] at h1 h2 ⊢
  rcases hab : strCmp a b with _ | _ | _
  · rcases hbc : strCmp b c with _ | _ | _
    · rw [strCmp_lt_trans hab hbc]; simp
    · rw [← (strCmp_eq_iff b c).mp hbc, hab]; simp
    · exact absurd hbc h2
  · rw [(strCmp_eq_iff a b).mp hab]; exact h2
  · exact absurd hab h1

theorem strLeB_refl (a : String) : strLeB a a = true := by
  rw [strLeB_iff_ne_gt, (strCmp_eq_iff a a).mpr rfl]
  simp

/-! ## The record comparator is a total preorder with antisymmetry -/

theorem skillLe_total (a b : SkillInfo) :
    skillLe a b = true ∨ skillLe b a = true := by
  unfold skillLe
  by_cases h : a.source = b.source
  · simp only [if_pos h, if_pos h.symm]
    exact strLeB_total a.name b.name
  · simp only [if_neg h, if_neg (Ne.symm h)]
    exact strLeB_total a.source b.source

theorem skillLe_antisymm {a b : SkillInfo}
    (h1 : skillLe a b = true) (h2 : skillLe b a = true) : a = b := by
  unfold skillLe at h1 h2
  by_cases h : a.source = b.source
  · rw [if_pos h] at h1
    rw [if_pos h.symm] at h2
    have hn : a.name = b.name := strLeB_antisymm h1 h2
    cases a; cases b
    simp_all
  · rw [if_neg h] at h1
    rw [if_neg (Ne.symm h)] at h2
    exact absurd (strLeB_antisymm h1 h2) h

theorem skillLe_trans {a b c : SkillInfo}
    (h1 : skillLe a b = true) (h2 : skillLe b c = true) :
    skillLe a c = true := by
  unfold skillLe at h1 h2 ⊢
  by_cases hab : a.source = b.source
  · rw [if_pos hab] at h1
    by_cases hbc : b.source = c.source
    · rw [if_pos hbc] at h2
      rw [if_pos (hab.trans hbc)]
      exact strLeB_trans h1 h2
    · rw [if_neg hbc] at h2
      rw [if_neg (hab ▸ hbc), hab]
      exact h2
  · rw [if_neg hab] at h1
    by_cases hbc : b.source = c.source
    · rw [if_neg (fun h => hab (h.trans hbc.symm)), ← hbc]
      exact h1
    · rw [if_neg hbc] at h2
      have hac : strLeB a.source c.source = true := strLeB_trans h1 h2
      by_cases h : a.source = c.source
      · exact absurd (strLeB_antisymm h1 (h ▸ h2)) hab
      · rw [if_neg h]; exact hac

instance : IsTotal SkillInfo skillLEP := ⟨skillLe_total⟩

instance : IsTrans SkillInfo skillLEP := ⟨fun _ _ _ => skillLe_trans⟩

instance : IsAntisymm SkillInfo skillLEP := ⟨fun _ _ => skillLe_antisymm⟩

theorem skillLEP_refl (a : SkillInfo) : skillLEP a a := by
  unfold skillLEP skillLe
  simp [strLeB_refl]

instance : IsRefl SkillInfo skillLEP := ⟨skillLEP_refl⟩

/-! ## Characterization of first-occurrence deduplication -/

theorem mem_dedupFirstAux {seen : List String} {xs : List SkillInfo}
    {r : SkillInfo} :
    r ∈ dedupFirstAux seen xs ↔
      skillKey r ∉ seen ∧
        xs.find? (fun s => skillKey s == skillKey r) = some r := by
  induction xs generalizing seen with
  | nil => simp [dedupFirstAux]
  | cons s rest ih =>
    by_cases hmatch : skillKey s = skillKey r
    · have hpos : (fun t => skillKey t == skillKey r) s = true := by
        simp [hmatch]
      have hfind := @List.find?_cons_of_pos SkillInfo
        (fun t => skillKey t == skillKey r) s rest hpos
      by_cases hs : skillKey s ∈ seen
      · rw [dedupFirstAux, if_pos hs, ih]
        have hr : skillKey r ∈ seen := hmatch ▸ hs
        simp [hfind, hr]
      · rw [dedupFirstAux, if_neg hs, List.mem_cons, ih, hfind]
        constructor
        · rintro (rfl | ⟨hnot, _⟩)
          · exact ⟨hmatch ▸ hs, rfl⟩
          · exact absurd (List.mem_cons.mpr (Or.inl hmatch.symm)) hnot
        · rintro ⟨_, hsome⟩
          injection hsome with h
          exact Or.inl h.symm
    · have hneg : ¬ (fun t => skillKey t == skillKey r) s = true := by
        simp [hmatch]
      have hfind := @List.find?_cons_of_neg SkillInfo
        (fun t => skillKey t == skillKey r) s rest hneg
      by_cases hs : skillKey s ∈ seen
      · rw [dedupFirstAux, if_pos hs, ih, hfind]
      · rw [dedupFirstAux, if_neg hs, List.mem_cons, ih, hfind]
        constructor
        · rintro (rfl | ⟨hnot, hrest⟩)
          · exact absurd rfl hmatch
          · exact ⟨fun h => hnot (List.mem_cons_of_mem _ h), hrest⟩
        · rintro ⟨hnot, hrest⟩
          refine Or.inr ⟨?_, hrest⟩
          intro h
          rcases List.mem_cons.mp h with h | h
          · exact hmatch h.symm
          · exact hnot h

theorem dedupFirstAux_keys_nodup (seen : List String) (xs : List SkillInfo) :
    ((dedupFirstAux seen xs).map skillKey).Nodup ∧
      ∀ r ∈ dedupFirstAux seen xs, skillKey r ∉ seen := by
  induction xs generalizing seen with
  | nil => simp [dedupFirstAux]
  | cons s rest ih =>
    by_cases hs : skillKey s ∈ seen
    · rw [dedupFirstAux, if_pos hs]; exact ih seen
    · rw [dedupFirstAux, if_neg hs]
      obtain ⟨hnodup, hmem⟩ := ih (skillKey s :: seen)
      refine ⟨?_, ?_⟩
      · rw [List.map_cons, List.nodup_cons]
        refine ⟨?_, hnodup⟩
        intro hin
        obtain ⟨r, hr, hkey⟩ := List.mem_map.mp hin
        exact hmem r hr (hkey ▸ List.mem_cons_self _ _)
      · intro r hr
        rcases List.mem_cons.mp hr with rfl | hr'
        · exact hs
        · exact fun hseen => hmem r hr' (List.mem_cons_of_mem _ hseen)

theorem dedupFirstAux_eq_self {seen : List String} {xs : List SkillInfo}
    (hdisj : ∀ r ∈ xs, skillKey r ∉ seen)
    (hnodup : (xs.map skillKey).Nodup) : dedupFirstAux seen xs = xs := by
  induction xs generalizing seen with
  | nil => rfl
  | cons s rest ih =>
    rw [List.map_cons, List.nodup_cons] at hnodup
    rw [dedupFirstAux, if_neg (hdisj s (List.mem_cons_self _ _))]
    congr 1
    refine ih ?_ hnodup.2
    intro r hr hmem
    rcases List.mem_cons.mp hmem with h | h
    · exact hnodup.1 (h ▸ List.mem_map_of_mem skillKey hr)
    · exact hdisj r (List.mem_cons_of_mem _ hr) h

/-! ## Canonical form of `uniqueSortedSkills` outputs -/

/-- A list is canonical if its keys are pairwise distinct and it is sorted
by the `(source, name)` comparator. -/
def canonicalSkills (xs : List SkillInfo) : Prop :=
  (xs.map skillKey).Nodup ∧ xs.Sorted skillLEP

theorem canonical_uniqueSortedSkills (xs : List SkillInfo) :
    canonicalSkills (uniqueSortedSkills xs) := by
  constructor
  · have hperm := (List.perm_insertionSort skillLEP
      (dedupFirstAux [] xs)).map skillKey
    exact hperm.nodup_iff.mpr (dedupFirstAux_keys_nodup [] xs).1
  · exact List.sorted_insertionSort skillLEP (dedupFirstAux [] xs)

theorem mem_uniqueSortedSkills {xs : List SkillInfo} {r : SkillInfo} :
    r ∈ uniqueSortedSkills xs ↔
      xs.find? (fun s => skillKey s == skillKey r) = some r := by
  rw [uniqueSortedSkills,
    (List.perm_insertionSort skillLEP (dedupFirstAux [] xs)).mem_iff,
    mem_dedupFirstAux]
  simp

theorem mem_of_mem_uniqueSortedSkills {xs : List SkillInfo} {r : SkillInfo}
    (h : r ∈ uniqueSortedSkills xs) : r ∈ xs :=
  List.mem_of_find?_eq_some (mem_uniqueSortedSkills.mp h)

theorem uniqueSortedSkills_of_canonical {xs : List SkillInfo}
    (h : canonicalSkills xs) : uniqueSortedSkills xs = xs := by
  rw [uniqueSortedSkills, dedupFirstAux_eq_self (by simp) h.1]
  exact h.2.insertionSort_eq

theorem uniqueSortedSkills_idem (xs : List SkillInfo) :
    uniqueSortedSkills (uniqueSortedSkills xs) = uniqueSortedSkills xs :=
  uniqueSortedSkills_of_canonical (canonical_uniqueSortedSkills xs)

theorem canonical_normalizeSkills (xs : List RawSkill) :
    canonicalSkills (normalizeSkills xs) :=
  canonical_uniqueSortedSkills _

/-! ## `areSameSkills` decides equality of the canonical forms -/

theorem skillEqB_iff {a b : SkillInfo} : skillEqB a b = true ↔ a = b := by
  cases a; cases b
  simp [skillEqB, SkillInfo.mk.injEq]

theorem lengthZipAll_iff {xs ys : List SkillInfo} :
    (xs.length == ys.length &&
      (xs.zip ys).all fun p => skillEqB p.1 p.2) = true ↔ xs = ys := by
  induction xs generalizing ys with
  | nil => cases ys <;> simp
  | cons x xs ih =>
    cases ys with
    | nil => simp
    | cons y ys =>
      simp only [List.length_cons, List.zip_cons_cons, List.all_cons,
        List.cons.injEq, Bool.and_eq_true, beq_iff_eq, Nat.add_right_cancel_iff,
        skillEqB_iff]
      constructor
      · rintro ⟨hlen, hx, hall⟩
        exact ⟨hx, ih.mp (by simp [hlen, hall])⟩
      · rintro ⟨hx, hxs⟩
        have := ih.mpr hxs
        simp only [Bool.and_eq_true, beq_iff_eq] at this
        exact ⟨this.1, hx, this.2⟩

theorem areSameSkills_true_iff (l r : List SkillInfo) :
    areSameSkills l r = true ↔
      uniqueSortedSkills l = uniqueSortedSkills r := by
  unfold areSameSkills
  exact lengthZipAll_iff

theorem canonical_eq_iff_same_mem {xs ys : List SkillInfo}
    (hx : canonicalSkills xs) (hy : canonicalSkills ys) :
    xs = ys ↔ ∀ r, r ∈ xs ↔ r ∈ ys := by
  constructor
  · rintro rfl r; rfl
  · intro h
    have hperm : xs.Perm ys :=
      (List.perm_ext_iff_of_nodup (hx.1.of_map _) (hy.1.of_map _)).mpr h
    exact List.eq_of_perm_of_sorted hperm hx.2 hy.2

/-! ## Membership helpers for the difference filters -/

theorem any_skillEqB_iff {l : List SkillInfo} {s : SkillInfo} :
    (l.any fun x => skillEqB x s) = true ↔ s ∈ l := by
  rw [List.any_eq_true]
  constructor
  · rintro ⟨x, hx, hEq⟩
    exact (skillEqB_iff.mp hEq) ▸ hx
  · intro h
    exact ⟨s, h, skillEqB_iff.mpr rfl⟩

theorem mem_diff_filter {ys l : List SkillInfo} {s : SkillInfo} :
    s ∈ ys.filter (fun t => !(l.any fun x => skillEqB x t)) ↔
      s ∈ ys ∧ s ∉ l := by
  have hb : ∀ t : SkillInfo,
      ((!(l.any fun x => skillEqB x t)) = true) ↔ t ∉ l := by
    intro t
    rw [Bool.not_eq_true', Bool.eq_false_iff]
    exact not_congr any_skillEqB_iff
  rw [List.mem_filter, hb s]

theorem isNewer_true_iff {opt : Option Int} {last : Int} :
    isNewer opt last = true ↔ ∃ rt, opt = some rt ∧ last < rt := by
  cases opt with
  | none => simp [isNewer]
  | some rt => simp [isNewer]

/-- The union of the two normalized skill sets, deduplicated and sorted
(the `unionSkills` value of the merge path). -/
def unionOfPayloads (lp rp : RawPayload) : List SkillInfo :=
  uniqueSortedSkills (normalizeSkills lp.skills ++ normalizeSkills rp.skills)

/-! ## Claim theorems -/

/-- Claim C1: for every `Date.parse` model, payload pair and optional
`lastSyncAt`, `buildAutoPlan` sets `isRemoteNewer` to `true` exactly when
the parsed remote `updatedAt` is non-null and strictly greater than the
parsed `lastSyncAt` (with `0` substituted when the latter is absent or
unparsable); whenever `isRemoteNewer` is `false` — in particular on an
exact timestamp tie or an unparsable remote timestamp — the plan takes the
else branch, whose `installCandidates` list is empty. -/
theorem C1_buildAutoPlan_isRemoteNewer (dp : String → Option Int)
    (lp rp : RawPayload) (lastSyncAt : Option String) (now : String) :
    ((buildAutoPlan dp lp rp lastSyncAt now).isRemoteNewer = true ↔
      ∃ rt, parseTimestamp dp (some rp.updatedAt) = some rt ∧
        (parseTimestamp dp lastSyncAt).getD 0 < rt)
    ∧ ((buildAutoPlan dp lp rp lastSyncAt now).isRemoteNewer = true ∨
       (buildAutoPlan dp lp rp lastSyncAt now).installCandidates = []) := by
  have hplan : (buildAutoPlan dp lp rp lastSyncAt now).isRemoteNewer =
      isNewer (parseTimestamp dp (some rp.updatedAt))
        ((parseTimestamp dp lastSyncAt).getD 0) := by
    simp only [buildAutoPlan]
    split <;> rfl
  refine ⟨by rw [hplan]; exact isNewer_true_iff, ?_⟩
  by_cases h : isNewer (parseTimestamp dp (some rp.updatedAt))
      ((parseTimestamp dp lastSyncAt).getD 0) = true
  · exact Or.inl (hplan ▸ h)
  · refine Or.inr ?_
    unfold buildAutoPlan
    rw [if_neg h]

/-- Claim C2: `buildMergePlan` returns `uploadPayload = null` exactly when
the normalized remote set is set-equal to the union of the normalized local
and remote sets; otherwise the payload is the canonical union stamped with
`nowIso`. -/
theorem C2_buildMergePlan_uploadPayload (lp rp : RawPayload)
    (now : String) :
    ((buildMergePlan lp rp now).uploadPayload = none ↔
      ∀ r, r ∈ normalizeSkills rp.skills ↔ r ∈ unionOfPayloads lp rp)
    ∧ ((buildMergePlan lp rp now).uploadPayload = none ∨
       (buildMergePlan lp rp now).uploadPayload =
         some { skills := unionOfPayloads lp rp, updatedAt := now }) := by
  have hfield : (buildMergePlan lp rp now).uploadPayload =
      (if areSameSkills (normalizeSkills rp.skills) (unionOfPayloads lp rp)
       then none
       else some { skills := unionOfPayloads lp rp, updatedAt := now }) :=
    rfl
  have hcanonU : canonicalSkills (unionOfPayloads lp rp) :=
    canonical_uniqueSortedSkills _
  have hiff : areSameSkills (normalizeSkills rp.skills)
      (unionOfPayloads lp rp) = true ↔
      ∀ r, r ∈ normalizeSkills rp.skills ↔ r ∈ unionOfPayloads lp rp := by
    rw [areSameSkills_true_iff,
      uniqueSortedSkills_of_canonical (canonical_normalizeSkills rp.skills),
      uniqueSortedSkills_of_canonical hcanonU]
    exact canonical_eq_iff_same_mem (canonical_normalizeSkills _) hcanonU
  by_cases h : areSameSkills (normalizeSkills rp.skills)
      (unionOfPayloads lp rp) = true
  · rw [hfield, if_pos h]
    exact ⟨iff_of_true rfl (hiff.mp h), Or.inl rfl⟩
  · rw [hfield, if_neg h]
    exact ⟨iff_of_false (by simp) fun hmem => h (hiff.mpr hmem),
      Or.inr rfl⟩

/-- Claim C3: in the pull plan, `installCandidates` are exactly the
normalized remote records absent from the normalized local set and
`removeCandidates` exactly the local records absent from the remote set;
hence `installCandidates` is disjoint from the remote records already
present locally and together they recover the remote set exactly
(symmetrically for `removeCandidates`).  The `PullSyncPlan` structure has
no upload-payload field at all, so pull never writes remote state. -/
theorem C3_buildPullPlan_complementarity (lp rp : RawPayload) :
    (∀ r, r ∈ (buildPullPlan lp rp).installCandidates ↔
        r ∈ (buildPullPlan lp rp).remoteSkills ∧
          r ∉ (buildPullPlan lp rp).localSkills)
    ∧ (∀ r, r ∈ (buildPullPlan lp rp).removeCandidates ↔
        r ∈ (buildPullPlan lp rp).localSkills ∧
          r ∉ (buildPullPlan lp rp).remoteSkills)
    ∧ (∀ r, r ∈ (buildPullPlan lp rp).remoteSkills ↔
        (r ∈ (buildPullPlan lp rp).installCandidates ∨
          (r ∈ (buildPullPlan lp rp).remoteSkills ∧
            r ∈ (buildPullPlan lp rp).localSkills)))
    ∧ (∀ r, r ∈ (buildPullPlan lp rp).localSkills ↔
        (r ∈ (buildPullPlan lp rp).removeCandidates ∨
          (r ∈ (buildPullPlan lp rp).localSkills ∧
            r ∈ (buildPullPlan lp rp).remoteSkills))) := by
  have hinstall : ∀ r, r ∈ (buildPullPlan lp rp).installCandidates ↔
      r ∈ (buildPullPlan lp rp).remoteSkills ∧
        r ∉ (buildPullPlan lp rp).localSkills := fun r => mem_diff_filter
  have hremove : ∀ r, r ∈ (buildPullPlan lp rp).removeCandidates ↔
      r ∈ (buildPullPlan lp rp).localSkills ∧
        r ∉ (buildPullPlan lp rp).remoteSkills := fun r => mem_diff_filter
  refine ⟨hinstall, hremove, ?_, ?_⟩
  · intro r
    rw [hinstall r]
    by_cases hl : r ∈ (buildPullPlan lp rp).localSkills
    · simp [hl]
    · simp [hl]
  · intro r
    rw [hremove r]
    by_cases hl : r ∈ (buildPullPlan lp rp).remoteSkills
    · simp [hl]
    · simp [hl]

/-- Claim C6: `uniqueSortedSkills` keeps exactly the first occurrence of
each exact-string key `source + ":" + name` (later duplicates dropped, no
case folding), its output keys are pairwise distinct, and the output is
sorted ascending by `source` with `name` as tiebreak. -/
theorem C6_uniqueSortedSkills_first_occurrence_sorted (xs : List SkillInfo) :
    (∀ r, r ∈ uniqueSortedSkills xs ↔
      xs.find? (fun s => skillKey s == skillKey r) = some r)
    ∧ ((uniqueSortedSkills xs).map skillKey).Nodup
    ∧ (uniqueSortedSkills xs).Sorted skillLEP :=
  ⟨fun _ => mem_uniqueSortedSkills,
    (canonical_uniqueSortedSkills xs).1,
    (canonical_uniqueSortedSkills xs).2⟩

/-- Claim C7: every value returned by `normalizeSkills` or
`uniqueSortedSkills` is canonical — duplicate-free on the `(source, name)`
record identity, the earliest-iterated record winning on key collision
(each surviving record is the first of its key in the input), and sorted
in the canonical order. -/
theorem C7_canonical_invariant (xs : List SkillInfo)
    (raws : List RawSkill) :
    (uniqueSortedSkills xs).Nodup
    ∧ (uniqueSortedSkills xs).Sorted skillLEP
    ∧ (∀ r ∈ uniqueSortedSkills xs,
        xs.find? (fun s => skillKey s == skillKey r) = some r)
    ∧ (normalizeSkills raws).Nodup
    ∧ (normalizeSkills raws).Sorted skillLEP :=
  ⟨List.Nodup.of_map _ (canonical_uniqueSortedSkills xs).1,
    (canonical_uniqueSortedSkills xs).2,
    fun _ hr => mem_uniqueSortedSkills.mp hr,
    List.Nodup.of_map _ (canonical_normalizeSkills raws).1,
    (canonical_normalizeSkills raws).2⟩

/-- Witness for C7 at a concrete input. -/
theorem C7_canonical_invariant_witness :
    ([{ name := "alpha", source := "org/repo" }] : List SkillInfo).find?
        (fun s =>
          skillKey s == skillKey { name := "alpha", source := "org/repo" }) =
      some { name := "alpha", source := "org/repo" } :=
  (C7_canonical_invariant [{ name := "alpha", source := "org/repo" }]
      []).2.2.1
    { name := "alpha", source := "org/repo" } (by decide)

/-- Re-entry of an already-normalized record as an object entry (feeding
`normalizeSkills` output back into `normalizeSkills`, both fields present). -/
def reinject (s : SkillInfo) : RawSkill := .obj (some s.name) (some s.source)

theorem coerceRaw_reinject (s : SkillInfo) : coerceRaw (reinject s) = s := by
  cases s
  rfl

theorem keepSkill_of_mem_normalizeSkills {raws : List RawSkill}
    {r : SkillInfo} (h : r ∈ normalizeSkills raws) : keepSkill r = true :=
  (List.mem_filter.mp (mem_of_mem_uniqueSortedSkills h)).2

/-- Claim C8: normalization is idempotent — re-normalizing the output of
`normalizeSkills` (fed back in object form) returns it unchanged, for any
mix of legacy-string and object entries in the original input. -/
theorem C8_normalizeSkills_idempotent (xs : List RawSkill) :
    normalizeSkills ((normalizeSkills xs).map reinject) =
      normalizeSkills xs := by
  have hmap : ((normalizeSkills xs).map reinject).map coerceRaw =
      normalizeSkills xs := by
    rw [List.map_map]
    have hcomp : coerceRaw ∘ reinject = id := funext coerceRaw_reinject
    rw [hcomp, List.map_id]
  have hfilter : (normalizeSkills xs).filter keepSkill =
      normalizeSkills xs :=
    List.filter_eq_self.mpr fun _ hr => keepSkill_of_mem_normalizeSkills hr
  show uniqueSortedSkills
      ((((normalizeSkills xs).map reinject).map coerceRaw).filter keepSkill) =
    normalizeSkills xs
  rw [hmap, hfilter]
  exact uniqueSortedSkills_of_canonical (canonical_normalizeSkills xs)

/-- Counterexample to claim C4 as stated: the `parseStrategy` helper of the
legacy sync command (one of the two cited implementations) does not raise a
validation error on the explicitly wrong value `"bogus"` — it silently
substitutes the default strategy `"union"` (its total return type admits no
failure at all). -/
theorem C4_counterexample :
    parseStrategyLegacyCmd (some "bogus") = MergeStrategy.union := rfl

/-- Claim C4 (amended): the core `parseStrategy` of the legacy combined
module maps `undefined` and the empty string to `"union"`, passes
`"union"`/`"latest"` through, and raises the descriptive validation error
naming the offending value and the allowed set for every other non-empty
string — only the command-level duplicate in the legacy sync command falls
back to the default silently. -/
theorem C4_parseStrategy_amended :
    parseStrategy none = .ok .union
    ∧ parseStrategy (some "") = .ok .union
    ∧ parseStrategy (some "union") = .ok .union
    ∧ parseStrategy (some "latest") = .ok .latest
    ∧ ∀ s : String, s ≠ "" → s ≠ "union" → s ≠ "latest" →
        parseStrategy (some s) =
          .error ("Invalid strategy \"" ++ s ++
            "\". Use one of: union, latest.") := by
  refine ⟨rfl, rfl, rfl, rfl, ?_⟩
  intro s h1 h2 h3
  show (if s = "" then Except.ok MergeStrategy.union
    else if s = "union" then Except.ok MergeStrategy.union
    else if s = "latest" then Except.ok MergeStrategy.latest
    else Except.error ("Invalid strategy \"" ++ s ++
      "\". Use one of: union, latest.")) = _
  rw [if_neg h1, if_neg h2, if_neg h3]

/-- Witness for the amended C4 at the concrete input `"bogus"`. -/
theorem C4_parseStrategy_amended_witness :
    parseStrategy (some "bogus") =
      .error ("Invalid strategy \"" ++ "bogus" ++
        "\". Use one of: union, latest.") :=
  C4_parseStrategy_amended.2.2.2.2 "bogus" (by decide) (by decide)
    (by decide)

/-- Counterexample to claim C5 as stated: an object entry whose `source` is
the empty string (falsy but not nullish) keeps the empty source — the JS
code substitutes the default only for nullish values (`??`), so the
normalized record's source is `""`, not `DEFAULT_SKILL_SOURCE_REPO`. -/
theorem C5_counterexample :
    normalizeSkills [RawSkill.obj (some "alpha") (some "")] =
        [{ name := "alpha", source := "" }]
      ∧ ("" : String) ≠ DEFAULT_SKILL_SOURCE_REPO := by
  exact ⟨by decide, by decide⟩

/-- Claim C5 (amended): an object entry's fields are the string values of
the input fields, with `DEFAULT_SKILL_SOURCE_REPO` substituted exactly when
`source` is absent (nullish) — an empty-string source is preserved — and a
bare string becomes a record with the default source; every record
`normalizeSkills` returns is the conversion of some input entry. -/
theorem C5_normalizeSkills_amended :
    (∀ n s : Option String,
        coerceRaw (.obj n s) =
          { name := n.getD "", source := s.getD DEFAULT_SKILL_SOURCE_REPO })
    ∧ (∀ t : String,
        coerceRaw (.str t) =
          { name := t, source := DEFAULT_SKILL_SOURCE_REPO })
    ∧ (∀ (raws : List RawSkill) (r : SkillInfo),
        r ∈ normalizeSkills raws → ∃ raw ∈ raws, r = coerceRaw raw) := by
  refine ⟨fun n s => rfl, fun t => rfl, ?_⟩
  intro raws r hr
  have h2 : r ∈ raws.map coerceRaw :=
    (List.mem_filter.mp (mem_of_mem_uniqueSortedSkills hr)).1
  obtain ⟨raw, hraw, hcoerce⟩ := List.mem_map.mp h2
  exact ⟨raw, hraw, hcoerce.symm⟩

/-- Witness for the amended C5 at a concrete input. -/
theorem C5_normalizeSkills_amended_witness :
    ∃ raw ∈ [RawSkill.str "alpha"],
      ({ name := "alpha", source := DEFAULT_SKILL_SOURCE_REPO } :
        SkillInfo) = coerceRaw raw :=
  C5_normalizeSkills_amended.2.2 [RawSkill.str "alpha"]
    { name := "alpha", source := DEFAULT_SKILL_SOURCE_REPO } (by decide)

/-! ## Permutation invariance of set equality -/

theorem find?_key_of_injective {a : List SkillInfo} {r : SkillInfo}
    (hinj : ∀ x ∈ a, ∀ y ∈ a, skillKey x = skillKey y → x = y)
    (hr : r ∈ a) :
    a.find? (fun s => skillKey s == skillKey r) = some r := by
  rcases hfind : a.find? (fun s => skillKey s == skillKey r) with _ | x
  · rw [List.find?_eq_none] at hfind
    exact absurd (by simp) (hfind r hr)
  · have hkey : skillKey x = skillKey r := by
      simpa using List.find?_some hfind
    have hxa := List.mem_of_find?_eq_some hfind
    rw [hinj x hxa r hr hkey]

theorem uniqueSortedSkills_perm_congr {a p : List SkillInfo}
    (hinj : ∀ x ∈ a, ∀ y ∈ a, skillKey x = skillKey y → x = y)
    (hperm : a.Perm p) :
    uniqueSortedSkills a = uniqueSortedSkills p := by
  have hinjP : ∀ x ∈ p, ∀ y ∈ p, skillKey x = skillKey y → x = y :=
    fun x hx y hy =>
      hinj x (hperm.mem_iff.mpr hx) y (hperm.mem_iff.mpr hy)
  have hmemA : ∀ r, r ∈ uniqueSortedSkills a ↔ r ∈ a := fun r =>
    ⟨fun h => mem_of_mem_uniqueSortedSkills h,
     fun h => mem_uniqueSortedSkills.mpr (find?_key_of_injective hinj h)⟩
  have hmemP : ∀ r, r ∈ uniqueSortedSkills p ↔ r ∈ p := fun r =>
    ⟨fun h => mem_of_mem_uniqueSortedSkills h,
     fun h => mem_uniqueSortedSkills.mpr (find?_key_of_injective hinjP h)⟩
  have hpermUS : (uniqueSortedSkills a).Perm (uniqueSortedSkills p) :=
    (List.perm_ext_iff_of_nodup
        (List.Nodup.of_map _ (canonical_uniqueSortedSkills a).1)
        (List.Nodup.of_map _ (canonical_uniqueSortedSkills p).1)).mpr
      fun r => by rw [hmemA r, hmemP r, hperm.mem_iff]
  exact List.eq_of_perm_of_sorted hpermUS
    (canonical_uniqueSortedSkills a).2 (canonical_uniqueSortedSkills p).2

/-- Counterexample to claim C9 as stated: the dedup key concatenates the
fields with a bare `":"`, so the two distinct records
`{name "c", source "a:b"}` and `{name "b:c", source "a"}` share the key
`"a:b:c"`; first-occurrence deduplication of a permutation then keeps a
different record and `areSameSkills` returns `false` on a list and its own
permutation. -/
theorem C9_counterexample :
    ([{ name := "c", source := "a:b" }, { name := "b:c", source := "a" }] :
        List SkillInfo).Perm
        [{ name := "b:c", source := "a" }, { name := "c", source := "a:b" }]
      ∧ areSameSkills
          [{ name := "c", source := "a:b" },
           { name := "b:c", source := "a" }]
          [{ name := "b:c", source := "a" },
           { name := "c", source := "a:b" }] = false :=
  ⟨List.Perm.swap _ _ _, by decide⟩

/-- Claim C9 (amended): `areSameSkills(a, p)` is `true` for every
permutation `p` of `a` provided distinct records of `a` never collide on
the dedup key `source + ":" + name` (in particular whenever no source
contains a colon); the unrestricted statement fails on key collisions. -/
theorem C9_areSameSkills_perm (a p : List SkillInfo)
    (hinj : ∀ x ∈ a, ∀ y ∈ a, skillKey x = skillKey y → x = y)
    (hperm : a.Perm p) : areSameSkills a p = true := by
  rw [areSameSkills_true_iff]
  exact uniqueSortedSkills_perm_congr hinj hperm

/-- Witness for the amended C9 at a concrete permutation. -/
theorem C9_areSameSkills_perm_witness :
    areSameSkills
        [{ name := "alpha", source := "org/repo" },
         { name := "beta", source := "org/repo" }]
        [{ name := "beta", source := "org/repo" },
         { name := "alpha", source := "org/repo" }] = true :=
  C9_areSameSkills_perm _ _ (by decide) (List.Perm.swap _ _ _)

/-- Claim C10: the legacy combined entry point agrees with the per-mode
builders — with strategy union, `buildSyncPlan` produces the same
`localSkills`, `remoteSkills`, `installCandidates` and `uploadPayload` as
`buildMergePlan` (its `isRemoteNewer` pinned to `false`); with strategy
latest it produces the same fields, including `isRemoteNewer`, as
`buildAutoPlan`. -/
theorem C10_buildSyncPlan_agrees_with_mode_builders
    (dp : String → Option Int) (lp rp : RawPayload)
    (lastSyncAt : Option String) (now : String) :
    ((buildSyncPlan dp .union lp rp lastSyncAt now).localSkills =
        (buildMergePlan lp rp now).localSkills
      ∧ (buildSyncPlan dp .union lp rp lastSyncAt now).remoteSkills =
        (buildMergePlan lp rp now).remoteSkills
      ∧ (buildSyncPlan dp .union lp rp lastSyncAt now).installCandidates =
        (buildMergePlan lp rp now).installCandidates
      ∧ (buildSyncPlan dp .union lp rp lastSyncAt now).uploadPayload =
        (buildMergePlan lp rp now).uploadPayload
      ∧ (buildSyncPlan dp .union lp rp lastSyncAt now).isRemoteNewer =
        false)
    ∧ ((buildSyncPlan dp .latest lp rp lastSyncAt now).localSkills =
        (buildAutoPlan dp lp rp lastSyncAt now).localSkills
      ∧ (buildSyncPlan dp .latest lp rp lastSyncAt now).remoteSkills =
        (buildAutoPlan dp lp rp lastSyncAt now).remoteSkills
      ∧ (buildSyncPlan dp .latest lp rp lastSyncAt now).installCandidates =
        (buildAutoPlan dp lp rp lastSyncAt now).installCandidates
      ∧ (buildSyncPlan dp .latest lp rp lastSyncAt now).uploadPayload =
        (buildAutoPlan dp lp rp lastSyncAt now).uploadPayload
      ∧ (buildSyncPlan dp .latest lp rp lastSyncAt now).isRemoteNewer =
        (buildAutoPlan dp lp rp lastSyncAt now).isRemoteNewer) := by
  refine ⟨⟨rfl, rfl, rfl, rfl, rfl⟩, ?_⟩
  by_cases h : isNewer (parseTimestamp dp (some rp.updatedAt))
      ((parseTimestamp dp lastSyncAt).getD 0) = true
  · refine ⟨?_, ?_, ?_, ?_, ?_⟩ <;>
      · simp only [buildSyncPlan, buildAutoPlan]
        rw [if_pos h, if_pos h]
  · refine ⟨?_, ?_, ?_, ?_, ?_⟩ <;>
      · simp only [buildSyncPlan, buildAutoPlan]
        rw [if_neg h, if_neg h]
